import Mathlib

/-!
Verification of the subprocess-execution and instrumentation core of the
`harmony-tools` repository (Python). Strings are modelled as `List Char`;
Python `str` operations used by the code (`splitlines`, `"\n".join`,
f-string numerals, negative-index slices) are embedded as executable
Lean functions, and the runner / wrapper logic as pure functions over an
abstract spawn outcome.
-/

namespace HarmonyTools

/-- Line-boundary characters recognised by Python `str.splitlines`
(`\n`, `\r`, `\v`, `\f`, FS, GS, RS, NEL, LINE SEPARATOR, PARAGRAPH
SEPARATOR; the pair `\r\n` is treated as a single boundary by
`splitlines` itself). -/
def isLineBreak (c : Char) : Bool :=
  c = '\n' || c = '\r' || c = '\u000B' || c = '\u000C' ||
  c = '\u001C' || c = '\u001D' || c = '\u001E' || c = '\u0085' ||
  c = '\u2028' || c = '\u2029'

/-- Python `str.splitlines`: split at line boundaries, `\r\n` counting as
one boundary; a trailing boundary does not produce a final empty line,
and the empty string yields no lines. -/
def splitlines : List Char → List (List Char)
  | [] => []
  | '\r' :: '\n' :: cs => [] :: splitlines cs
  | c :: cs =>
    if isLineBreak c then [] :: splitlines cs
    else
      match splitlines cs with
      | [] => [[c]]
      | l :: ls => (c :: l) :: ls

/-- Number of lines of a string in the sense of `str.splitlines`. -/
def lineCount (s : List Char) : Nat := (splitlines s).length

/-- Python `"\n".join`. -/
def joinNewline : List (List Char) → List Char
  | [] => []
  | [l] => l
  | l :: ls => l ++ '\n' :: joinNewline ls

/-- Python slice `xs[-k:]` for a non-negative `k`: for `k = 0` the slice
`xs[-0:]` is `xs[0:]`, the whole list; otherwise the last `k` elements. -/
def lastSlice (xs : List α) (k : Nat) : List α :=
  if k = 0 then xs else xs.drop (xs.length - k)

/-- Decimal digit character, as produced by Python `str(int)`. -/
def decDigit (n : Nat) : Char := Char.ofNat (48 + n)

/-- Fuel-driven decimal printer (the fuel makes it structurally
recursive, hence kernel-evaluable). -/
def natCharsCore : Nat → Nat → List Char → List Char
  | 0, _, acc => acc
  | fuel + 1, n, acc =>
    if n < 10 then decDigit n :: acc
    else natCharsCore fuel (n / 10) (decDigit (n % 10) :: acc)

/-- Decimal rendering of a natural number, as Python `str(int)` renders a
non-negative int inside an f-string. -/
def natChars (n : Nat) : List Char := natCharsCore (n + 1) n []

/-- The truncation notice produced by `HdcRunner._truncate_output` and
`HvigorRunner._truncate_output`:
`[Output truncated: showing last {max_lines} of {total_lines} lines]`. -/
def truncation_notice (maxLines totalLines : Nat) : List Char :=
  "[Output truncated: showing last ".data ++ natChars maxLines ++
  " of ".data ++ natChars totalLines ++ " lines]".data

/-- `HdcRunner._truncate_output` / `HvigorRunner._truncate_output`
(the two method bodies are identical): empty input is returned as is;
an input of at most `max_lines` lines is returned as is; otherwise the
slice `lines[-max_lines:]` is kept and the notice line is prepended. -/
def truncate_output (output : List Char) (max_lines : Nat) : List Char :=
  if output = [] then output
  else if (splitlines output).length ≤ max_lines then output
  else truncation_notice max_lines (splitlines output).length ++
    '\n' :: joinNewline (lastSlice (splitlines output) max_lines)

/-! ## Process invokers (`HdcRunner.run`, `HvigorRunner.run`)

The spawned process is external; its behaviour is abstracted as a
`SpawnOutcome` (what `subprocess.run` did: completed, raised
`TimeoutExpired` with the salvaged partial output, raised
`FileNotFoundError`, or raised some other exception). The runner bodies
are embedded as pure functions of that outcome; a raised Python
exception is an `Except.error`. -/

/-- A Python exception value: its class name, its `str()` message, and
the text `traceback.format_exc()` would render for it. -/
structure PyExc where
  excType : List Char
  message : List Char
  tbText : List Char
deriving DecidableEq

/-- What the spawned subprocess did (behaviour of `subprocess.run`). -/
inductive SpawnOutcome where
  | completed (returncode : Int) (stdout stderr : List Char)
  | timedOut (stdout stderr : Option (List Char))
  | notFound
  | otherError (exc : PyExc)
deriving DecidableEq

/-- The `HdcResult` dataclass. -/
structure HdcResult where
  command : List (List Char)
  stdout : List Char
  stderr : List Char
  returncode : Int
  timed_out : Bool
deriving DecidableEq

/-- The `HvigorResult` dataclass. -/
structure HvigorResult where
  command : List (List Char)
  cwd : List Char
  stdout : List Char
  stderr : List Char
  returncode : Int
  timed_out : Bool
deriving DecidableEq

/-- Python `x or fallback` where `x : str | None`: the fallback is used
when `x` is `None` and also when `x` is the (falsy) empty string. -/
def pyOrStr (v : Option (List Char)) (fallback : List Char) : List Char :=
  match v with
  | none => fallback
  | some s => if s = [] then fallback else s

/-- `HdcRunner.run`: builds `[executable] (+ ["-t", device] if device is
truthy) + args`; on completion truncates both streams and records the
real exit code; on `TimeoutExpired` truncates the salvaged output
(`exc.stdout or ""`, `exc.stderr or "timeout waiting for hdc"`) and
returns a result with returncode `-1` and `timed_out := true`; on
`FileNotFoundError` raises `RuntimeError` naming the executable; any
other exception propagates. -/
def hdc_run (executable : List Char) (args : List (List Char))
    (device : Option (List Char)) (max_output_lines : Nat)
    (spawn : SpawnOutcome) : Except PyExc HdcResult :=
  let command : List (List Char) :=
    executable :: ((match device with
      | some d => if d = [] then [] else ["-t".data, d]
      | none => []) ++ args)
  match spawn with
  | .completed rc out err =>
      .ok { command := command,
            stdout := truncate_output out max_output_lines,
            stderr := truncate_output err max_output_lines,
            returncode := rc, timed_out := false }
  | .timedOut out err =>
      .ok { command := command,
            stdout := truncate_output (pyOrStr out []) max_output_lines,
            stderr := truncate_output (pyOrStr err "timeout waiting for hdc".data)
                        max_output_lines,
            returncode := -1, timed_out := true }
  | .notFound =>
      .error { excType := "RuntimeError".data,
               message := "Unable to execute '".data ++ executable ++
                 "'. Ensure hdc is installed and on PATH.".data,
               tbText := [] }
  | .otherError exc => .error exc

/-- `HvigorRunner.run`: validates `project_dir` (truthy, and its
expanded form an existing directory) before spawning, runs with the
expanded directory as `cwd`, and otherwise mirrors `HdcRunner.run`
(fallback stderr `"timeout waiting for hvigorw"`, `RuntimeError` on
`FileNotFoundError`). -/
def hvigor_run (executable : List Char) (args : List (List Char))
    (project_dir : List Char) (expand : List Char → List Char)
    (isDir : List Char → Bool) (max_output_lines : Nat)
    (spawn : SpawnOutcome) : Except PyExc HvigorResult :=
  let resolved_project_dir := expand project_dir
  if project_dir = [] then
    .error { excType := "ValueError".data,
             message := "project_dir is required for hvigor builds".data,
             tbText := [] }
  else if ¬ isDir resolved_project_dir then
    .error { excType := "ValueError".data,
             message := "project_dir '".data ++ project_dir ++
               "' does not exist or is not a directory".data,
             tbText := [] }
  else
    let command : List (List Char) := executable :: args
    match spawn with
    | .completed rc out err =>
        .ok { command := command, cwd := resolved_project_dir,
              stdout := truncate_output out max_output_lines,
              stderr := truncate_output err max_output_lines,
              returncode := rc, timed_out := false }
    | .timedOut out err =>
        .ok { command := command, cwd := resolved_project_dir,
              stdout := truncate_output (pyOrStr out []) max_output_lines,
              stderr := truncate_output (pyOrStr err "timeout waiting for hvigorw".data)
                          max_output_lines,
              returncode := -1, timed_out := true }
    | .notFound =>
        .error { excType := "RuntimeError".data,
                 message := "Unable to execute '".data ++ executable ++
                   "'. Ensure hvigorw exists in the project or set HVIGORW_PATH to the wrapper path.".data,
                 tbText := [] }
    | .otherError exc => .error exc

/-! ## Executable resolver (`_resolve_executable`) -/

/-- The parts of `os.path` the resolver consults, as an abstract disk
state. -/
structure FileSystem where
  pathExists : List Char → Bool
  isFile : List Char → Bool
  isDir : List Char → Bool

/-- POSIX `os.path.join` restricted to a relative right operand. -/
def path_join (a b : List Char) : List Char :=
  if a = [] then b
  else if a.getLast? = some '/' then a ++ b
  else a ++ '/' :: b

/-- Candidate sub-paths probed by `HdcRunner._resolve_executable` when
given a directory, in order. -/
def hdc_candidates (dir : List Char) : List (List Char) :=
  [path_join dir "hdc".data,
   path_join dir "hdc.exe".data,
   path_join (path_join dir "bin".data) "hdc".data,
   path_join (path_join dir "bin".data) "hdc.exe".data]

/-- Candidate sub-paths probed by `HvigorRunner._resolve_executable`,
in order. -/
def hvigorw_candidates (dir : List Char) : List (List Char) :=
  [path_join dir "hvigorw".data,
   path_join (path_join dir "bin".data) "hvigorw".data]

/-- Shared body of the two `_resolve_executable` static methods (they
differ only in their candidate lists): expand the input, return it
unchanged when it does not exist or is a regular file, and when it is a
directory return the first candidate that is a regular file, falling
back to the expanded path. -/
def resolve_executable (fs : FileSystem) (expand : List Char → List Char)
    (candidates : List Char → List (List Char)) (path : List Char) : List Char :=
  let expanded_path := expand path
  if ¬ fs.pathExists expanded_path then expanded_path
  else if fs.isFile expanded_path then expanded_path
  else if fs.isDir expanded_path then
    match (candidates expanded_path).find? fs.isFile with
    | some candidate => candidate
    | none => expanded_path
  else expanded_path

/-- `HdcRunner._resolve_executable`. -/
def hdc_resolve_executable (fs : FileSystem) (expand : List Char → List Char)
    (path : List Char) : List Char :=
  resolve_executable fs expand hdc_candidates path

/-- `HvigorRunner._resolve_executable`. -/
def hvigorw_resolve_executable (fs : FileSystem) (expand : List Char → List Char)
    (path : List Char) : List Char :=
  resolve_executable fs expand hvigorw_candidates path

/-! ## Call-instrumentation wrapper (`_safe_tool`) -/

/-- JSON-like Python values returned by the tools. -/
inductive PyValue where
  | none
  | bool (b : Bool)
  | int (n : Int)
  | str (s : List Char)
  | list (xs : List PyValue)
  | dict (entries : List (List Char × PyValue))

/-- Python `d[k]` / `k in d` on a dict, first binding wins. -/
def dict_lookup (entries : List (List Char × PyValue)) (key : List Char) :
    Option PyValue :=
  match entries with
  | [] => Option.none
  | (k, v) :: rest => if k = key then some v else dict_lookup rest key

/-- Python truthiness of a value. -/
def py_truthy : PyValue → Bool
  | .none => false
  | .bool b => b
  | .int n => decide (n ≠ 0)
  | .str s => decide (s ≠ [])
  | .list xs => !xs.isEmpty
  | .dict es => !es.isEmpty

/-- Python `v == 0` (`True == 0` is `False`, `False == 0` is `True`;
non-numbers compare unequal). -/
def py_eq_zero : PyValue → Bool
  | .int n => decide (n = 0)
  | .bool b => !b
  | _ => false

/-- `_format_tool_exception`: the structured failure payload. -/
def format_tool_exception (tool_name : List Char) (exc : PyExc)
    (log_file : List Char) : PyValue :=
  .dict [("success".data, .bool false),
         ("error".data, .str exc.message),
         ("error_type".data, .str exc.excType),
         ("tool".data, .str tool_name),
         ("log_file".data, .str log_file),
         ("traceback".data, .str exc.tbText)]

/-- The success/failure classification `_safe_tool` logs after a normal
return (lines 169–183 of `service_bootstrap.py`): a `success` key wins,
else `returncode == 0`, else the call counts as successful. -/
def classify_success (result : PyValue) : Bool :=
  match result with
  | .dict entries =>
    match dict_lookup entries "success".data with
    | some v => py_truthy v
    | Option.none =>
      match dict_lookup entries "returncode".data with
      | some v => py_eq_zero v
      | Option.none => true
  | _ => true

/-- What one wrapped call produces: the payload handed back to the
transport and the success flag that drives the log lines. -/
structure ToolCallOutcome where
  payload : PyValue
  logged_success : Bool

/-- The `wrapped` closure built by `_safe_tool` around a tool body
`call` (which either returns a value or raises): an exception becomes
the structured failure payload, a normal return is handed back as is
after being classified for the log. -/
def safe_tool_call (tool_name log_file : List Char)
    (call : Except PyExc PyValue) : ToolCallOutcome :=
  match call with
  | .error exc =>
      { payload := format_tool_exception tool_name exc log_file,
        logged_success := false }
  | .ok result =>
      { payload := result, logged_success := classify_success result }

/-! ## `shlex.quote` / `shlex.split` (as used by `command_line` and
`split_arguments`) -/

/-- `shlex.whitespace` (token separators). -/
def isShlexWhitespace (c : Char) : Bool :=
  c = ' ' || c = '\t' || c = '\r' || c = '\n'

/-- `shlex.quotes`. -/
def isShlexQuote (c : Char) : Bool := c = '\'' || c = '"'

/-- The state letter of the `shlex` tokenizer in POSIX mode: between
tokens (`' '`), inside a word (`'a'`), inside a quote, or after an
escape character (with the state to return to: `'a'`, or the double
quote — the only member of `escapedquotes`). -/
inductive LexMode where
  | space
  | word
  | quote (q : Char)
  | escWord
  | escDquote
deriving DecidableEq

/-- The mutable state of `shlex.read_token`, threaded through `split`:
emitted tokens, the token being built, the per-token `quoted` flag, and
the state letter. -/
structure LexState where
  toks : List (List Char)
  token : List Char
  quoted : Bool
  mode : LexMode
deriving DecidableEq

/-- One character step of `shlex.read_token` with `posix=True`,
`whitespace_split=True`, no commenters and no punctuation chars (the
configuration `shlex.split` uses). In state `' '` the `wordchars` and
`whitespace_split` branches coincide (both start a word), so they are
merged here; emitting a token resets the `quoted` flag, as `split`
calls `read_token` afresh per token. -/
def shlex_step (s : LexState) (c : Char) : LexState :=
  match s.mode with
  | .space =>
      if isShlexWhitespace c then s
      else if c = '\\' then { s with mode := .escWord }
      else if isShlexQuote c then { s with mode := .quote c }
      else { s with token := [c], mode := .word }
  | .word =>
      if isShlexWhitespace c then
        { toks := s.toks ++ [s.token], token := [], quoted := false, mode := .space }
      else if isShlexQuote c then { s with mode := .quote c }
      else if c = '\\' then { s with mode := .escWord }
      else { s with token := s.token ++ [c] }
  | .quote q =>
      if c = q then { s with quoted := true, mode := .word }
      else if q = '"' ∧ c = '\\' then { s with quoted := true, mode := .escDquote }
      else { s with quoted := true, token := s.token ++ [c] }
  | .escWord => { s with token := s.token ++ [c], mode := .word }
  | .escDquote =>
      if c = '\\' ∨ c = '"' then { s with token := s.token ++ [c], mode := .quote '"' }
      else { s with token := s.token ++ ['\\', c], mode := .quote '"' }

/-- End of input in `read_token`: an open quote raises
`"No closing quotation"` and a pending escape `"No escaped character"`
(modelled as `none`); otherwise the pending token is emitted when it is
nonempty or was quoted. -/
def shlex_finish (s : LexState) : Option (List (List Char)) :=
  match s.mode with
  | .quote _ => Option.none
  | .escWord => Option.none
  | .escDquote => Option.none
  | _ => some (if s.token ≠ [] ∨ s.quoted then s.toks ++ [s.token] else s.toks)

/-- `shlex.split` in its default POSIX configuration — the tokenizer
`split_arguments` delegates to. -/
def shlex_split (input : List Char) : Option (List (List Char)) :=
  shlex_finish (input.foldl shlex_step ⟨[], [], false, .space⟩)

/-- Characters `shlex.quote` leaves unquoted: the complement of
`_find_unsafe`, i.e. ASCII `\w` plus `@ % + = : , . slash -`. -/
def isShlexSafe (c : Char) : Bool :=
  ('a' ≤ c && c ≤ 'z') || ('A' ≤ c && c ≤ 'Z') || ('0' ≤ c && c ≤ '9') ||
  c = '_' || c = '@' || c = '%' || c = '+' || c = '=' || c = ':' ||
  c = ',' || c = '.' || c = '/' || c = '-'

/-- Python `s.replace("'", "'\"'\"'")`. -/
def quote_replace : List Char → List Char
  | [] => []
  | c :: cs => (if c = '\'' then "'\"'\"'".data else [c]) ++ quote_replace cs

/-- `shlex.quote`: `''` for the empty string, the string itself when
every character is safe, otherwise single-quoted with embedded single
quotes spelled `'"'"'`. -/
def shlex_quote (s : List Char) : List Char :=
  if s = [] then "''".data
  else if s.all isShlexSafe then s
  else '\'' :: (quote_replace s ++ ['\''])

/-- Python `" ".join`. -/
def joinSpace : List (List Char) → List Char
  | [] => []
  | [x] => x
  | x :: xs => x ++ ' ' :: joinSpace xs

/-- The `command_line` property shared by `HdcResult` and
`HvigorResult`: each argv element `shlex.quote`d, joined with spaces. -/
def command_line (command : List (List Char)) : List Char :=
  joinSpace (command.map shlex_quote)

/-- `HdcResult.command_line`. -/
def HdcResult.command_line (r : HdcResult) : List Char :=
  HarmonyTools.command_line r.command

/-- `HvigorResult.command_line`. -/
def HvigorResult.command_line (r : HvigorResult) : List Char :=
  HarmonyTools.command_line r.command

/-! ## Lemmas about `splitlines`, `joinNewline` and the truncator -/

/-- A string with no line-boundary character (e.g. any single line
produced by `splitlines`). -/
abbrev NoBreak (l : List Char) : Prop := ∀ c ∈ l, isLineBreak c = false

theorem NoBreak.append {a b : List Char} (ha : NoBreak a) (hb : NoBreak b) :
    NoBreak (a ++ b) := by
  intro c hc
  rcases List.mem_append.mp hc with h | h
  exacts [ha c h, hb c h]

theorem splitlines_crlf (cs : List Char) :
    splitlines ('\r' :: '\n' :: cs) = [] :: splitlines cs := rfl

set_option maxHeartbeats 1000000 in
theorem splitlines_break (c : Char) (cs : List Char)
    (hcr : ∀ cs', c = '\r' → cs = '\n' :: cs' → False)
    (hb : isLineBreak c = true) :
    splitlines (c :: cs) = [] :: splitlines cs := by
  rw [splitlines.eq_def]
  split
  · next heq => exact absurd heq (by simp)
  · next cs' heq =>
      injection heq with h1 h2
      exact (hcr cs' h1 h2).elim
  · next c' cs' hne heq =>
      injection heq with h1 h2
      subst h1; subst h2
      simp [hb]

set_option maxHeartbeats 1000000 in
theorem splitlines_word (c : Char) (cs : List Char)
    (hcr : ∀ cs', c = '\r' → cs = '\n' :: cs' → False)
    (hb : isLineBreak c = false) :
    splitlines (c :: cs) = match splitlines cs with
      | [] => [[c]]
      | l :: ls => (c :: l) :: ls := by
  rw [splitlines.eq_def]
  split
  · next heq => exact absurd heq (by simp)
  · next cs' heq =>
      injection heq with h1 h2
      exact (hcr cs' h1 h2).elim
  · next c' cs' hne heq =>
      injection heq with h1 h2
      subst h1; subst h2
      simp [hb]

theorem not_cr_of_noBreak {c : Char} (h : isLineBreak c = false) :
    ∀ cs', c = '\r' → ∀ (cs : List Char), cs = '\n' :: cs' → False := by
  intro _ hc _ _
  subst hc
  simp [isLineBreak] at h

/-- Every line `splitlines` produces is free of line boundaries. -/
theorem noBreak_splitlines (s : List Char) :
    ∀ l ∈ splitlines s, NoBreak l := by
  induction s using splitlines.induct with
  | case1 => simp [splitlines]
  | case2 cs ih =>
      rw [splitlines_crlf]
      intro l hl
      rcases List.mem_cons.mp hl with rfl | hl
      · simp [NoBreak]
      · exact ih l hl
  | case3 c cs hcr hb ih =>
      rw [splitlines_break c cs hcr hb]
      intro l hl
      rcases List.mem_cons.mp hl with rfl | hl
      · simp [NoBreak]
      · exact ih l hl
  | case4 c cs hcr hb hnil ih =>
      rw [splitlines_word c cs hcr (by simpa using hb), hnil]
      intro l hl
      rcases List.mem_cons.mp hl with rfl | hl
      · intro d hd
        rcases List.mem_singleton.mp hd with rfl
        simpa using hb
      · simp at hl
  | case5 c cs hcr hb l0 ls0 heq ih =>
      rw [splitlines_word c cs hcr (by simpa using hb), heq]
      intro l hl
      rcases List.mem_cons.mp hl with rfl | hl
      · intro d hd
        rcases List.mem_cons.mp hd with rfl | hd
        · simpa using hb
        · exact ih l0 (by rw [heq]; exact List.mem_cons_self _ _) d hd
      · exact ih l (by rw [heq]; exact List.mem_cons_of_mem _ hl)

/-- A nonempty string yields at least one line. -/
theorem splitlines_ne_nil (s : List Char) (hs : s ≠ []) :
    splitlines s ≠ [] := by
  induction s using splitlines.induct with
  | case1 => exact absurd rfl hs
  | case2 cs ih => rw [splitlines_crlf]; simp
  | case3 c cs hcr hb ih => rw [splitlines_break c cs hcr hb]; simp
  | case4 c cs hcr hb hnil ih =>
      rw [splitlines_word c cs hcr (by simpa using hb), hnil]; simp
  | case5 c cs hcr hb l0 ls0 heq ih =>
      rw [splitlines_word c cs hcr (by simpa using hb), heq]; simp

/-- Peeling one explicit newline-terminated boundary-free line off the
front of a string. -/
theorem splitlines_line_append (l rest : List Char) (hl : NoBreak l) :
    splitlines (l ++ '\n' :: rest) = l :: splitlines rest := by
  induction l with
  | nil =>
      rw [List.nil_append,
        splitlines_break '\n' rest (by intro _ h; simp at h) (by decide)]
  | cons c l ih =>
      have hc : isLineBreak c = false := hl c (List.mem_cons_self _ _)
      have hl' : NoBreak l := fun d hd => hl d (List.mem_cons_of_mem _ hd)
      rw [List.cons_append,
        splitlines_word c (l ++ '\n' :: rest)
          (fun cs' h1 h2 => not_cr_of_noBreak hc cs' h1 _ h2) hc,
        ih hl']

/-- A nonempty boundary-free string is a single line. -/
theorem splitlines_noBreak_singleton (l : List Char) (hl : NoBreak l)
    (hne : l ≠ []) : splitlines l = [l] := by
  induction l with
  | nil => exact absurd rfl hne
  | cons c l ih =>
      have hc : isLineBreak c = false := hl c (List.mem_cons_self _ _)
      have hl' : NoBreak l := fun d hd => hl d (List.mem_cons_of_mem _ hd)
      rw [splitlines_word c l
        (fun cs' h1 h2 => not_cr_of_noBreak hc cs' h1 _ h2) hc]
      rcases eq_or_ne l [] with rfl | hlne
      · simp [splitlines]
      · rw [ih hl' hlne]

theorem joinNewline_cons (l : List Char) (ls : List (List Char))
    (h : ls ≠ []) : joinNewline (l :: ls) = l ++ '\n' :: joinNewline ls := by
  cases ls with
  | nil => exact absurd rfl h
  | cons l' ls => rfl

/-- Splitting the rejoin of boundary-free lines recovers the lines up
to the last one, which contributes its own `splitlines` (so a final
empty line is not recovered). -/
theorem splitlines_joinNewline_concat (ls : List (List Char)) (last : List Char)
    (h : ∀ l ∈ ls, NoBreak l) :
    splitlines (joinNewline (ls ++ [last])) = ls ++ splitlines last := by
  induction ls with
  | nil => rfl
  | cons l ls ih =>
      rw [List.cons_append, joinNewline_cons l (ls ++ [last]) (by simp),
        splitlines_line_append l _ (h l (List.mem_cons_self _ _)),
        ih (fun d hd => h d (List.mem_cons_of_mem _ hd)), List.cons_append]

/-- Rejoining boundary-free lines never increases the line count. -/
theorem length_splitlines_joinNewline_le (ls : List (List Char))
    (h : ∀ l ∈ ls, NoBreak l) :
    (splitlines (joinNewline ls)).length ≤ ls.length := by
  rcases List.eq_nil_or_concat ls with rfl | ⟨ls', last, rfl⟩
  · simp [joinNewline, splitlines]
  · rw [List.concat_eq_append] at h ⊢
    rw [splitlines_joinNewline_concat ls' last
      (fun d hd => h d (List.mem_append_left _ hd))]
    rcases eq_or_ne last [] with rfl | hne
    · simp [splitlines]
    · rw [splitlines_noBreak_singleton last
        (h last (List.mem_append_right _ (List.mem_singleton_self _))) hne]

theorem decDigit_not_break {n : Nat} (h : n < 10) :
    isLineBreak (decDigit n) = false := by
  interval_cases n <;> decide

theorem noBreak_natCharsCore (fuel n : Nat) (acc : List Char)
    (hacc : NoBreak acc) : NoBreak (natCharsCore fuel n acc) := by
  induction fuel generalizing n acc with
  | zero => exact hacc
  | succ fuel ih =>
      rw [natCharsCore]
      split
      · intro c hc
        rcases List.mem_cons.mp hc with rfl | hc
        · exact decDigit_not_break (by omega)
        · exact hacc c hc
      · exact ih (n / 10) _ (by
          intro c hc
          rcases List.mem_cons.mp hc with rfl | hc
          · exact decDigit_not_break (Nat.mod_lt _ (by omega))
          · exact hacc c hc)

theorem noBreak_natChars (n : Nat) : NoBreak (natChars n) :=
  noBreak_natCharsCore (n + 1) n [] (by intro c hc; simp at hc)

/-- The truncation notice is a single boundary-free line. -/
theorem noBreak_truncation_notice (m t : Nat) :
    NoBreak (truncation_notice m t) := by
  rw [truncation_notice]
  have h1 : NoBreak "[Output truncated: showing last ".data := by decide
  have h2 : NoBreak " of ".data := by decide
  have h3 : NoBreak " lines]".data := by decide
  exact (((h1.append (noBreak_natChars m)).append h2).append
    (noBreak_natChars t)).append h3

theorem truncation_notice_ne_nil (m t : Nat) : truncation_notice m t ≠ [] := by
  rw [truncation_notice]
  intro h
  have := congrArg List.length h
  simp at this

theorem lastSlice_zero (xs : List α) : lastSlice xs 0 = xs := if_pos rfl

theorem lastSlice_of_ne_zero (xs : List α) {k : Nat} (h : k ≠ 0) :
    lastSlice xs k = xs.drop (xs.length - k) := if_neg h

/-- The identity branch of `_truncate_output`: inputs of at most
`max_lines` lines (the empty string included) pass through verbatim. -/
theorem truncate_output_identity (s : List Char) (n : Nat)
    (h : lineCount s ≤ n) : truncate_output s n = s := by
  rw [lineCount] at h
  rcases eq_or_ne s [] with rfl | hs
  · rw [truncate_output, if_pos rfl]
  · rw [truncate_output, if_neg hs, if_pos h]

/-- The truncating branch of `_truncate_output`, unfolded. -/
theorem truncate_output_over (s : List Char) (n : Nat)
    (h : n < lineCount s) :
    truncate_output s n = truncation_notice n (lineCount s) ++
      '\n' :: joinNewline (lastSlice (splitlines s) n) := by
  have hs : s ≠ [] := by
    rintro rfl
    simp [lineCount, splitlines] at h
  rw [lineCount] at h ⊢
  rw [truncate_output, if_neg hs, if_neg (by omega)]

/-- Line count of a truncated output: the notice plus the rejoin of the
kept lines. -/
theorem lineCount_truncate_output_over (s : List Char) (n : Nat)
    (h : n < lineCount s) :
    lineCount (truncate_output s n) =
      (splitlines (joinNewline (lastSlice (splitlines s) n))).length + 1 := by
  rw [truncate_output_over s n h, lineCount,
    splitlines_line_append _ _ (noBreak_truncation_notice _ _)]
  simp [Nat.add_comm]

/-! ## Claims about the output truncator (C1, C5, C8, C9) -/

/-- C8: for every input string whose total line count is at most
`max_lines` — the empty string included — `_truncate_output` returns the
input completely unchanged. -/
theorem C8_truncate_identity_below_bound (s : List Char) (n : Nat)
    (h : lineCount s ≤ n) : truncate_output s n = s :=
  truncate_output_identity s n h

theorem C8_witness :
    lineCount "line one\nline two\n".data ≤ 5 ∧
    truncate_output "line one\nline two\n".data 5 = "line one\nline two\n".data :=
  ⟨by decide, C8_truncate_identity_below_bound _ 5 (by decide)⟩

/-- C1 as stated is violated at `max_lines = 0`: on a two-line input the
truncator emits the notice followed by both input lines, three lines in
all, exceeding the claimed `max_lines + 1` bound. -/
theorem C1_counterexample :
    truncate_output "ab\ncd".data 0 =
      "[Output truncated: showing last 0 of 2 lines]\nab\ncd".data ∧
    ¬ lineCount (truncate_output "ab\ncd".data 0) ≤ 0 + 1 :=
  ⟨by decide, by decide⟩

/-- C1 (amended: for a positive bound `max_lines ≥ 1`): whenever the
input has more than `max_lines` lines, the truncator returns the notice
line `[Output truncated: showing last {max_lines} of {total_lines}
lines]` followed by exactly the last `max_lines` lines of the input
rejoined with newlines, and the result never exceeds `max_lines + 1`
lines. -/
theorem C1_truncate_over_bound (s : List Char) (n : Nat) (h1 : 1 ≤ n)
    (h2 : n < lineCount s) :
    truncate_output s n =
      truncation_notice n (lineCount s) ++
        '\n' :: joinNewline ((splitlines s).drop (lineCount s - n)) ∧
    ((splitlines s).drop (lineCount s - n)).length = n ∧
    lineCount (truncate_output s n) ≤ n + 1 := by
  have hdrop : lastSlice (splitlines s) n = (splitlines s).drop (lineCount s - n) := by
    rw [lastSlice_of_ne_zero _ (by omega), lineCount]
  have hlen : ((splitlines s).drop (lineCount s - n)).length = n := by
    rw [List.length_drop]
    rw [lineCount] at h2 ⊢
    omega
  refine ⟨?_, hlen, ?_⟩
  · rw [truncate_output_over s n h2, hdrop]
  · have hmem : ∀ l ∈ lastSlice (splitlines s) n, NoBreak l := by
      intro l hl
      rw [hdrop] at hl
      exact noBreak_splitlines s l (List.drop_subset _ _ hl)
    have hle := length_splitlines_joinNewline_le _ hmem
    rw [lineCount_truncate_output_over s n h2, hdrop]
    rw [hdrop, hlen] at hle
    omega

theorem C1_witness :
    truncate_output "a\nb\nc".data 1 =
      truncation_notice 1 (lineCount "a\nb\nc".data) ++
        '\n' :: joinNewline
          ((splitlines "a\nb\nc".data).drop (lineCount "a\nb\nc".data - 1)) ∧
    ((splitlines "a\nb\nc".data).drop (lineCount "a\nb\nc".data - 1)).length = 1 ∧
    lineCount (truncate_output "a\nb\nc".data 1) ≤ 1 + 1 :=
  C1_truncate_over_bound _ 1 (by decide) (by decide)

/-- C9: at bound zero, on any nonempty input, the truncator returns the
notice `[Output truncated: showing last 0 of {total_lines} lines]`
followed by every line of the input — the slice `lines[-0:]` keeps the
whole list — so the output is the full rejoined input plus one notice
line rather than at most `0 + 1` lines. -/
theorem C9_truncate_zero_keeps_all (s : List Char) (h : s ≠ []) :
    truncate_output s 0 =
      truncation_notice 0 (lineCount s) ++ '\n' :: joinNewline (splitlines s) ∧
    lastSlice (splitlines s) 0 = splitlines s ∧
    lineCount (truncate_output s 0) =
      (splitlines (joinNewline (splitlines s))).length + 1 := by
  have hpos : 0 < lineCount s := by
    rw [lineCount]
    exact List.length_pos.mpr (splitlines_ne_nil s h)
  refine ⟨?_, lastSlice_zero _, ?_⟩
  · rw [truncate_output_over s 0 hpos, lastSlice_zero]
  · rw [lineCount_truncate_output_over s 0 hpos, lastSlice_zero]

theorem C9_witness :
    truncate_output "ab\ncd".data 0 =
      truncation_notice 0 (lineCount "ab\ncd".data) ++
        '\n' :: joinNewline (splitlines "ab\ncd".data) ∧
    lastSlice (splitlines "ab\ncd".data) 0 = splitlines "ab\ncd".data ∧
    lineCount (truncate_output "ab\ncd".data 0) =
      (splitlines (joinNewline (splitlines "ab\ncd".data))).length + 1 :=
  C9_truncate_zero_keeps_all _ (by decide)

/-- C5 as stated is false: truncating a three-line input at bound 1 and
truncating the result again at bound 1 changes the text (the notice now
reports 2 total lines instead of 3). -/
theorem C5_counterexample :
    truncate_output (truncate_output "a\nb\nc".data 1) 1 ≠
      truncate_output "a\nb\nc".data 1 := by decide

/-- C5 (amended): double truncation at the same bound is a no-op when
the input fits the bound (no truncation happens), and also when the
bound is positive and exactly one line is over (the re-split drops the
notice and the notice is reproduced verbatim); for inputs at least two
lines over the bound it is not a no-op, as the counterexample shows. -/
theorem C5_truncate_idempotent_cases (s : List Char) (n : Nat)
    (h : lineCount s ≤ n ∨ (1 ≤ n ∧ lineCount s = n + 1)) :
    truncate_output (truncate_output s n) n = truncate_output s n := by
  rcases h with h | ⟨hn, hL⟩
  · rw [truncate_output_identity s n h, truncate_output_identity s n h]
  · have h2 : n < lineCount s := by omega
    have hd1 : lineCount s - n = 1 := by omega
    have hdrop : lastSlice (splitlines s) n = (splitlines s).drop 1 := by
      rw [lastSlice_of_ne_zero _ (by omega), ← hd1, lineCount]
    have hkeptlen : ((splitlines s).drop 1).length = n := by
      rw [List.length_drop]
      rw [lineCount] at hL
      omega
    have hkeptmem : ∀ l ∈ (splitlines s).drop 1, NoBreak l := fun l hl =>
      noBreak_splitlines s l (List.drop_subset _ _ hl)
    have ht : truncate_output s n =
        truncation_notice n (n + 1) ++ '\n' :: joinNewline ((splitlines s).drop 1) := by
      rw [truncate_output_over s n h2, hdrop, hL]
    rcases List.eq_nil_or_concat ((splitlines s).drop 1) with hnil | ⟨ks, k, hconcat⟩
    · rw [hnil] at hkeptlen
      simp at hkeptlen
      omega
    · rw [List.concat_eq_append] at hconcat
      have hks : ∀ d ∈ ks, NoBreak d := fun d hd =>
        hkeptmem d (hconcat ▸ List.mem_append_left _ hd)
      have hsplit_t : splitlines (truncate_output s n) =
          truncation_notice n (n + 1) :: (ks ++ splitlines k) := by
        rw [ht, splitlines_line_append _ _ (noBreak_truncation_notice _ _), hconcat,
          splitlines_joinNewline_concat ks k hks]
      have hkslen : ks.length + 1 = n := by
        rw [hconcat] at hkeptlen
        simpa using hkeptlen
      rcases eq_or_ne k [] with rfl | hk
      · have hfits : lineCount (truncate_output s n) ≤ n := by
          rw [lineCount, hsplit_t]
          simp only [splitlines, List.append_nil, List.length_cons]
          omega
        rw [truncate_output_identity _ n hfits]
      · have hsk : splitlines k = [k] :=
          splitlines_noBreak_singleton k
            (hkeptmem k (hconcat ▸ List.mem_append_right _ (List.mem_singleton_self _))) hk
        have hsplit_t' : splitlines (truncate_output s n) =
            truncation_notice n (n + 1) :: (splitlines s).drop 1 := by
          rw [hsplit_t, hsk, ← hconcat]
        have hLt : lineCount (truncate_output s n) = n + 1 := by
          rw [lineCount, hsplit_t', List.length_cons, hkeptlen]
        have h2' : n < lineCount (truncate_output s n) := by omega
        rw [truncate_output_over _ n h2', hLt,
          lastSlice_of_ne_zero _ (show n ≠ 0 by omega), hsplit_t']
        have hback :
            (truncation_notice n (n + 1) :: (splitlines s).drop 1).drop
              ((truncation_notice n (n + 1) :: (splitlines s).drop 1).length - n) =
            (splitlines s).drop 1 := by
          rw [List.length_cons, hkeptlen]
          have h11 : n + 1 - n = 1 := by omega
          rw [h11, List.drop_succ_cons, List.drop_zero]
        rw [hback, ht]

theorem C5_witness :
    truncate_output (truncate_output "a\nb".data 1) 1 =
      truncate_output "a\nb".data 1 :=
  C5_truncate_idempotent_cases _ 1 (Or.inr ⟨le_refl 1, by decide⟩)

/-! ## Claims about the runners (C2, C4), the wrapper (C3, C10) and the
resolver (C7) -/

/-- C2: when the spawned process times out, both runners return
normally — an `Except.ok` result, not a raised error — carrying the
sentinel returncode `-1`, `timed_out = true`, and the truncated salvaged
output (empty-string default for stdout, fallback message for stderr);
and for every result either runner ever returns, `timed_out = true`
implies `returncode = -1`. -/
theorem C2_timeout_returns_result :
    (∀ (exe : List Char) (args : List (List Char)) (device : Option (List Char))
        (n : Nat) (out err : Option (List Char)), ∃ r : HdcResult,
      hdc_run exe args device n (.timedOut out err) = .ok r ∧
      r.returncode = -1 ∧ r.timed_out = true ∧
      r.stdout = truncate_output (pyOrStr out []) n ∧
      r.stderr = truncate_output (pyOrStr err "timeout waiting for hdc".data) n) ∧
    (∀ (exe : List Char) (args : List (List Char)) (pd : List Char)
        (expand : List Char → List Char) (isdir : List Char → Bool)
        (n : Nat) (out err : Option (List Char)),
      pd ≠ [] → isdir (expand pd) = true → ∃ r : HvigorResult,
      hvigor_run exe args pd expand isdir n (.timedOut out err) = .ok r ∧
      r.returncode = -1 ∧ r.timed_out = true ∧
      r.stdout = truncate_output (pyOrStr out []) n ∧
      r.stderr = truncate_output (pyOrStr err "timeout waiting for hvigorw".data) n) ∧
    (∀ (exe : List Char) (args : List (List Char)) (device : Option (List Char))
        (n : Nat) (spawn : SpawnOutcome) (r : HdcResult),
      hdc_run exe args device n spawn = .ok r →
      r.timed_out = true → r.returncode = -1) ∧
    (∀ (exe : List Char) (args : List (List Char)) (pd : List Char)
        (expand : List Char → List Char) (isdir : List Char → Bool)
        (n : Nat) (spawn : SpawnOutcome) (r : HvigorResult),
      hvigor_run exe args pd expand isdir n spawn = .ok r →
      r.timed_out = true → r.returncode = -1) := by
  refine ⟨?_, ?_, ?_, ?_⟩
  · intro exe args device n out err
    exact ⟨_, rfl, rfl, rfl, rfl, rfl⟩
  · intro exe args pd expand isdir n out err hpd hdir
    rw [hvigor_run, if_neg hpd, if_neg (by simp [hdir])]
    exact ⟨_, rfl, rfl, rfl, rfl, rfl⟩
  · intro exe args device n spawn r hok hto
    cases spawn with
    | completed rc out err =>
        simp only [hdc_run] at hok
        injection hok with h
        rw [← h] at hto
        simp at hto
    | timedOut out err =>
        simp only [hdc_run] at hok
        injection hok with h
        rw [← h]
    | notFound => simp only [hdc_run] at hok; exact Except.noConfusion hok
    | otherError exc => simp only [hdc_run] at hok; exact Except.noConfusion hok
  · intro exe args pd expand isdir n spawn r hok hto
    simp only [hvigor_run] at hok
    by_cases h1 : pd = []
    · rw [if_pos h1] at hok
      exact Except.noConfusion hok
    · rw [if_neg h1] at hok
      by_cases h2 : isdir (expand pd) = true
      · rw [if_neg (not_not_intro h2)] at hok
        cases spawn with
        | completed rc out err =>
            injection hok with h
            rw [← h] at hto
            simp at hto
        | timedOut out err =>
            injection hok with h
            rw [← h]
        | notFound => exact Except.noConfusion hok
        | otherError exc => exact Except.noConfusion hok
      · rw [if_pos h2] at hok
        exact Except.noConfusion hok

theorem C2_witness : ∃ r : HvigorResult,
    hvigor_run "hv".data [] "p".data (fun s => s) (fun _ => true) 3
      (.timedOut Option.none Option.none) = .ok r ∧
    r.returncode = -1 ∧ r.timed_out = true ∧
    r.stdout = truncate_output (pyOrStr Option.none []) 3 ∧
    r.stderr = truncate_output
      (pyOrStr Option.none "timeout waiting for hvigorw".data) 3 :=
  C2_timeout_returns_result.2.1 "hv".data [] "p".data (fun s => s)
    (fun _ => true) 3 Option.none Option.none (by decide) rfl

/-- C4: when the operating system reports at spawn time that the
resolved executable cannot be found, both runners raise (return an
`Except.error`, so no result object is produced) an environment-failure
exception — a `RuntimeError` — whose message carries the resolved
executable path. -/
theorem C4_not_found_raises :
    (∀ (exe : List Char) (args : List (List Char)) (device : Option (List Char))
        (n : Nat), ∃ e : PyExc,
      hdc_run exe args device n .notFound = .error e ∧
      e.excType = "RuntimeError".data ∧
      e.message = "Unable to execute '".data ++ exe ++
        "'. Ensure hdc is installed and on PATH.".data) ∧
    (∀ (exe : List Char) (args : List (List Char)) (pd : List Char)
        (expand : List Char → List Char) (isdir : List Char → Bool) (n : Nat),
      pd ≠ [] → isdir (expand pd) = true → ∃ e : PyExc,
      hvigor_run exe args pd expand isdir n .notFound = .error e ∧
      e.excType = "RuntimeError".data ∧
      e.message = "Unable to execute '".data ++ exe ++
        "'. Ensure hvigorw exists in the project or set HVIGORW_PATH to the wrapper path.".data) := by
  constructor
  · intro exe args device n
    exact ⟨_, rfl, rfl, rfl⟩
  · intro exe args pd expand isdir n hpd hdir
    rw [hvigor_run, if_neg hpd, if_neg (by simp [hdir])]
    exact ⟨_, rfl, rfl, rfl⟩

theorem C4_witness : ∃ e : PyExc,
    hvigor_run "hv".data [] "p".data (fun s => s) (fun _ => true) 3 .notFound =
      .error e ∧
    e.excType = "RuntimeError".data ∧
    e.message = "Unable to execute '".data ++ "hv".data ++
      "'. Ensure hvigorw exists in the project or set HVIGORW_PATH to the wrapper path.".data :=
  C4_not_found_raises.2 "hv".data [] "p".data (fun s => s) (fun _ => true) 3
    (by decide) rfl

/-- C3: when the wrapped operation raises, the wrapper returns the
structured failure payload instead of propagating: a dict with
`success = false`, `error` = the exception message, `error_type` = the
exception class name, `tool` = the operation name, `log_file` = the log
file path and `traceback` = the formatted stack trace. -/
theorem C3_wrapper_catches_exceptions (tool_name log_file : List Char)
    (exc : PyExc) : ∃ entries,
    (safe_tool_call tool_name log_file (.error exc)).payload = .dict entries ∧
    dict_lookup entries "success".data = some (.bool false) ∧
    dict_lookup entries "error".data = some (.str exc.message) ∧
    dict_lookup entries "error_type".data = some (.str exc.excType) ∧
    dict_lookup entries "tool".data = some (.str tool_name) ∧
    dict_lookup entries "log_file".data = some (.str log_file) ∧
    dict_lookup entries "traceback".data = some (.str exc.tbText) := by
  refine ⟨_, rfl, ?_, ?_, ?_, ?_, ?_, ?_⟩ <;>
    simp [dict_lookup]

/-- C10: when the wrapped operation returns normally, the wrapper hands
its value back unmodified — dict or not — and the success/failure
classification feeds only the log flag, never the payload. -/
theorem C10_wrapper_passthrough (tool_name log_file : List Char) (v : PyValue) :
    (safe_tool_call tool_name log_file (.ok v)).payload = v ∧
    (safe_tool_call tool_name log_file (.ok v)).logged_success =
      classify_success v :=
  ⟨rfl, rfl⟩

/-- C7: the executable resolvers are total functions of the disk state
and, for every input: a non-existing expanded path is returned
unchanged; an existing regular file is returned unchanged; for an
existing directory the first tool-specific candidate that is a regular
file is returned, and failing that the expanded directory path
itself. -/
theorem C7_resolver_cases (fs : FileSystem) (expand : List Char → List Char)
    (path : List Char) :
    (fs.pathExists (expand path) = false →
      hdc_resolve_executable fs expand path = expand path ∧
      hvigorw_resolve_executable fs expand path = expand path) ∧
    (fs.pathExists (expand path) = true → fs.isFile (expand path) = true →
      hdc_resolve_executable fs expand path = expand path ∧
      hvigorw_resolve_executable fs expand path = expand path) ∧
    (fs.pathExists (expand path) = true → fs.isFile (expand path) = false →
      fs.isDir (expand path) = true →
      hdc_resolve_executable fs expand path =
        ((hdc_candidates (expand path)).find? fs.isFile).getD (expand path) ∧
      hvigorw_resolve_executable fs expand path =
        ((hvigorw_candidates (expand path)).find? fs.isFile).getD (expand path)) := by
  refine ⟨?_, ?_, ?_⟩
  · intro h
    constructor <;>
      simp [hdc_resolve_executable, hvigorw_resolve_executable,
        resolve_executable, h]
  · intro h hf
    constructor <;>
      simp [hdc_resolve_executable, hvigorw_resolve_executable,
        resolve_executable, h, hf]
  · intro h hf hd
    constructor
    · rw [hdc_resolve_executable, resolve_executable, if_neg (by simp [h]),
        if_neg (by simp [hf]), if_pos (by simp [hd])]
      cases hfind : (hdc_candidates (expand path)).find? fs.isFile <;>
        simp [hfind]
    · rw [hvigorw_resolve_executable, resolve_executable, if_neg (by simp [h]),
        if_neg (by simp [hf]), if_pos (by simp [hd])]
      cases hfind : (hvigorw_candidates (expand path)).find? fs.isFile <;>
        simp [hfind]

theorem C7_witness :
    hdc_resolve_executable ⟨fun _ => false, fun _ => false, fun _ => false⟩
      (fun s => s) "x".data = (fun s : List Char => s) "x".data ∧
    hvigorw_resolve_executable ⟨fun _ => false, fun _ => false, fun _ => false⟩
      (fun s => s) "x".data = (fun s : List Char => s) "x".data :=
  (C7_resolver_cases _ (fun s => s) "x".data).1 rfl

/-! ## The `shlex` round trip (C6) -/

theorem safe_not_ws {c : Char} (h : isShlexSafe c = true) :
    isShlexWhitespace c = false := by
  by_contra hw
  rw [Bool.not_eq_false] at hw
  simp only [isShlexWhitespace, Bool.or_eq_true, decide_eq_true_eq] at hw
  rcases hw with ((rfl | rfl) | rfl) | rfl <;> exact absurd h (by decide)

theorem safe_not_quote {c : Char} (h : isShlexSafe c = true) :
    isShlexQuote c = false := by
  by_contra hw
  rw [Bool.not_eq_false] at hw
  simp only [isShlexQuote, Bool.or_eq_true, decide_eq_true_eq] at hw
  rcases hw with rfl | rfl <;> exact absurd h (by decide)

theorem safe_not_backslash {c : Char} (h : isShlexSafe c = true) : c ≠ '\\' := by
  rintro rfl
  exact absurd h (by decide)

/-- Inside a word, a run of safe characters is appended to the pending
token verbatim. -/
theorem foldl_word_safe (rest : List Char)
    (hsafe : ∀ c ∈ rest, isShlexSafe c = true) (acc : List (List Char))
    (t : List Char) (q : Bool) :
    List.foldl shlex_step ⟨acc, t, q, .word⟩ rest = ⟨acc, t ++ rest, q, .word⟩ := by
  induction rest generalizing t with
  | nil => simp
  | cons c rest ih =>
      have hc : isShlexSafe c = true := hsafe c (List.mem_cons_self _ _)
      have hstep : shlex_step ⟨acc, t, q, .word⟩ c = ⟨acc, t ++ [c], q, .word⟩ := by
        simp only [shlex_step]
        rw [if_neg (by simp [safe_not_ws hc]), if_neg (by simp [safe_not_quote hc]),
          if_neg (safe_not_backslash hc)]
      rw [List.foldl_cons, hstep,
        ih (fun d hd => hsafe d (List.mem_cons_of_mem _ hd)) (t ++ [c])]
      simp

/-- Inside a single-quoted section, the body produced by
`quote_replace` followed by the closing quote appends exactly the
original characters and ends the section, leaving the machine in the
word state with the `quoted` flag set. -/
theorem foldl_quote_replace (s : List Char) (acc : List (List Char))
    (t : List Char) (q : Bool) :
    List.foldl shlex_step ⟨acc, t, q, .quote '\''⟩ (quote_replace s ++ ['\'']) =
      ⟨acc, t ++ s, true, .word⟩ := by
  induction s generalizing t q with
  | nil => simp [quote_replace, shlex_step]
  | cons c cs ih =>
      rcases eq_or_ne c '\'' with rfl | hc
      · have h5 : quote_replace ('\'' :: cs) ++ ['\''] =
            '\'' :: '"' :: '\'' :: '"' :: '\'' :: (quote_replace cs ++ ['\'']) := by
          simp [quote_replace]
        rw [h5, List.foldl_cons, List.foldl_cons, List.foldl_cons,
          List.foldl_cons, List.foldl_cons]
        have e1 : shlex_step ⟨acc, t, q, .quote '\''⟩ '\'' = ⟨acc, t, true, .word⟩ := rfl
        have e2 : shlex_step ⟨acc, t, true, .word⟩ '"' = ⟨acc, t, true, .quote '"'⟩ := rfl
        have e3 : shlex_step ⟨acc, t, true, .quote '"'⟩ '\'' =
            ⟨acc, t ++ ['\''], true, .quote '"'⟩ := rfl
        have e4 : shlex_step ⟨acc, t ++ ['\''], true, .quote '"'⟩ '"' =
            ⟨acc, t ++ ['\''], true, .word⟩ := rfl
        have e5 : shlex_step ⟨acc, t ++ ['\''], true, .word⟩ '\'' =
            ⟨acc, t ++ ['\''], true, .quote '\''⟩ := rfl
        rw [e1, e2, e3, e4, e5, ih (t ++ ['\'']) true]
        simp
      · have hbody : quote_replace (c :: cs) ++ ['\''] =
            c :: (quote_replace cs ++ ['\'']) := by
          simp [quote_replace, hc]
        have hstep : shlex_step ⟨acc, t, q, .quote '\''⟩ c =
            ⟨acc, t ++ [c], true, .quote '\''⟩ := by
          simp only [shlex_step]
          rw [if_neg hc, if_neg (by simp)]
        rw [hbody, List.foldl_cons, hstep, ih (t ++ [c]) true]
        simp

/-- Feeding one `shlex.quote`d token to the machine between tokens
accumulates exactly that token, ending in the word state; an empty
token is marked quoted. -/
theorem foldl_shlex_quote (s : List Char) (acc : List (List Char)) :
    ∃ qf : Bool,
      List.foldl shlex_step ⟨acc, [], false, .space⟩ (shlex_quote s) =
        ⟨acc, s, qf, .word⟩ ∧ (s ≠ [] ∨ qf = true) := by
  rcases eq_or_ne s [] with rfl | hne
  · exact ⟨true, rfl, Or.inr rfl⟩
  · by_cases hall : s.all isShlexSafe
    · cases s with
      | nil => exact absurd rfl hne
      | cons c cs =>
          have hc : isShlexSafe c = true := by
            have := List.all_eq_true.mp hall
            exact this c (List.mem_cons_self _ _)
          have hcs : ∀ d ∈ cs, isShlexSafe d = true := fun d hd =>
            List.all_eq_true.mp hall d (List.mem_cons_of_mem _ hd)
          have hq : shlex_quote (c :: cs) = c :: cs := by
            rw [shlex_quote, if_neg hne, if_pos hall]
          have hstep : shlex_step ⟨acc, [], false, .space⟩ c =
              ⟨acc, [c], false, .word⟩ := by
            simp only [shlex_step]
            rw [if_neg (by simp [safe_not_ws hc]),
              if_neg (safe_not_backslash hc),
              if_neg (by simp [safe_not_quote hc])]
          refine ⟨false, ?_, Or.inl hne⟩
          rw [hq, List.foldl_cons, hstep, foldl_word_safe cs hcs acc [c] false]
          simp
    · have hq : shlex_quote s = '\'' :: (quote_replace s ++ ['\'']) := by
        rw [shlex_quote, if_neg hne, if_neg hall]
      have hstep : shlex_step ⟨acc, [], false, .space⟩ '\'' =
          ⟨acc, [], false, .quote '\''⟩ := rfl
      refine ⟨true, ?_, Or.inr rfl⟩
      rw [hq, List.foldl_cons, hstep, foldl_quote_replace s acc [] false]
      simp

theorem joinSpace_cons (x : List Char) (xs : List (List Char)) (h : xs ≠ []) :
    joinSpace (x :: xs) = x ++ ' ' :: joinSpace xs := by
  cases xs with
  | nil => exact absurd rfl h
  | cons y ys => rfl

/-- The machine splits a space-joined list of quoted tokens back into
exactly those tokens, whatever they were. -/
theorem shlex_finish_foldl_command_line (argv : List (List Char))
    (acc : List (List Char)) :
    shlex_finish (List.foldl shlex_step ⟨acc, [], false, .space⟩
      (joinSpace (argv.map shlex_quote))) = some (acc ++ argv) := by
  induction argv generalizing acc with
  | nil => simp [joinSpace, shlex_finish]
  | cons s rest ih =>
      obtain ⟨qf, hfold, hemit⟩ := foldl_shlex_quote s acc
      cases rest with
      | nil =>
          rw [List.map_cons, List.map_nil]
          show shlex_finish (List.foldl shlex_step _ (shlex_quote s)) = _
          rw [hfold, shlex_finish]
          rw [if_pos (by simpa using hemit)]
      | cons s' rest' =>
          rw [List.map_cons,
            joinSpace_cons (shlex_quote s) _ (by simp),
            List.foldl_append, hfold, List.foldl_cons]
          have hspace : shlex_step ⟨acc, s, qf, .word⟩ ' ' =
              ⟨acc ++ [s], [], false, .space⟩ := rfl
          rw [hspace, ih (acc ++ [s])]
          simp

/-- C6: shell-quoting each argv element and joining with spaces is
inverted exactly by `shlex.split` — for every argv list, in particular
for the `command` of every `HdcResult` / `HvigorResult` via their
`command_line` property, and for the three-element example
`["shell", "ls -la", "a b"]`. -/
theorem C6_command_line_round_trip :
    (∀ argv : List (List Char), shlex_split (command_line argv) = some argv) ∧
    (∀ r : HdcResult, shlex_split r.command_line = some r.command) ∧
    (∀ r : HvigorResult, shlex_split r.command_line = some r.command) ∧
    shlex_split (command_line ["shell".data, "ls -la".data, "a b".data]) =
      some ["shell".data, "ls -la".data, "a b".data] := by
  have main : ∀ argv : List (List Char),
      shlex_split (command_line argv) = some argv := by
    intro argv
    rw [shlex_split, command_line]
    simpa using shlex_finish_foldl_command_line argv []
  exact ⟨main, fun r => main r.command, fun r => main r.command, main _⟩


end HarmonyTools
